import Mathlib

/-!
CiderPress reformatter base classes (`reformat/ReformatBase.h`).

A shallow embedding of the inline helpers of `class Reformat` and
`class ReformatText`, and theorems about them.  The run-length unpacker of
`class ReformatGraphics` and the style operations of `class ReformatText` are
only declared in this header; they are modelled from the specification, and
each such definition says so.

Conventions of the embedding.

* An `unsigned char` is a `Byte = Fin 256`.
* A `const unsigned char*` is a buffer (`List Byte`) together with an offset
  into it.  Dereferencing an offset outside the buffer has no defined result,
  so every function that dereferences returns an `Option`, and `none` stands
  for an out-of-bounds access.
* `int` is 32 bits wide and `unsigned long` is 32 bits wide (the MSVC data
  model CiderPress is built for); `unsigned short` is 16 bits wide.  An `int`
  is represented by its 32-bit two's complement bit pattern.
* `long *pLength` is a signed counter, modelled by `Int`; the readers only
  decrement it when it is positive, so it never wraps.
-/

namespace CiderPress

/-- An `unsigned char`. -/
abbrev Byte := Fin 256

/-- Width in bits of `int`. -/
def intBits : Nat := 32

/-- Width in bits of `unsigned long`. -/
def ulongBits : Nat := 32

/-- Width in bits of `unsigned short`. -/
def ushortBits : Nat := 16

/-- The expression `b << k` for a byte `b`: the byte is promoted to `int`, the
result is the bit pattern of the shifted `int` (the bits shifted out of the
`int` are lost). -/
def shlInt (b : Byte) (k : Nat) : Nat := (b.val <<< k) % 2 ^ intBits

/-- Conversion of an `int` (given by its bit pattern `p`) to `unsigned long`:
the value of the `int` is taken modulo `2 ^ ulongBits`.  A pattern with the
sign bit set stands for the negative value `p - 2 ^ intBits`, to which a
multiple of `2 ^ ulongBits` is added before reducing; this sign-extends when
`unsigned long` is wider than `int`. -/
def intToULong (p : Nat) : Nat :=
  if p < 2 ^ (intBits - 1) then p % 2 ^ ulongBits
  else (p + (2 ^ ulongBits * 2 ^ intBits - 2 ^ intBits)) % 2 ^ ulongBits

/-- Conversion of an `int` (given by its bit pattern) to `unsigned short`. -/
def intToUShort (p : Nat) : Nat := p % 2 ^ ushortBits

/-- The expression `*(buf + i)`: `none` when the address lies outside the
buffer. -/
def deref (mem : List Byte) (i : Nat) : Option Byte := mem[i]?

/-- The pair `(*pBuf, *pLength)` the consuming readers work on, with the
memory `*pBuf` points into. -/
structure Cursor where
  /-- The bytes of the buffer. -/
  mem : List Byte
  /-- The pointer `*pBuf`, as an offset into `mem`. -/
  pos : Nat
  /-- The counter `*pLength`. -/
  len : Int
deriving DecidableEq

/-- What a consuming reader leaves behind: the returned value, the cursor, and
whether `ASSERT(false)` was reached. -/
structure ReadResult where
  /-- The returned value. -/
  val : Nat
  /-- The updated `(*pBuf, *pLength)`. -/
  cur : Cursor
  /-- True when the call reached `ASSERT(false)`. -/
  asserted : Bool
deriving DecidableEq

/-- The function `Reformat::Read8`: grab the next 8 bits. -/
def Read8 (c : Cursor) : Option ReadResult :=
  if c.len > 0 then
    -- (*pLength)--; return *(*pBuf)++;
    (deref c.mem c.pos).map fun b =>
      { val := b.val, cur := { c with pos := c.pos + 1, len := c.len - 1 }, asserted := false }
  else
    -- ASSERT(false); return (unsigned char) -1;
    some { val := 2 ^ 8 - 1, cur := c, asserted := true }

/-- The function `Reformat::Read16`: grab a 16-bit little-endian value. -/
def Read16 (c : Cursor) : Option ReadResult :=
  if c.len ≥ 2 then
    -- val = *(*pBuf)++;
    (deref c.mem c.pos).bind fun b0 =>
    let val := b0.val
    -- val |= *(*pBuf)++ << 8;
    (deref c.mem (c.pos + 1)).bind fun b1 =>
    let val := intToUShort (val ||| shlInt b1 8)
    -- *pLength -= 2;
    some { val := val, cur := { c with pos := c.pos + 2, len := c.len - 2 }, asserted := false }
  else
    -- ASSERT(false); val = (unsigned short) -1;
    some { val := 2 ^ ushortBits - 1, cur := c, asserted := true }

/-- The function `Reformat::Read32`: grab a 32-bit little-endian value. -/
def Read32 (c : Cursor) : Option ReadResult :=
  if c.len ≥ 4 then
    -- val = *(*pBuf)++;
    (deref c.mem c.pos).bind fun b0 =>
    let val := b0.val
    -- val |= *(*pBuf)++ << 8;
    (deref c.mem (c.pos + 1)).bind fun b1 =>
    let val := val ||| intToULong (shlInt b1 8)
    -- val |= *(*pBuf)++ << 16;
    (deref c.mem (c.pos + 2)).bind fun b2 =>
    let val := val ||| intToULong (shlInt b2 16)
    -- val |= *(*pBuf)++ << 24;
    (deref c.mem (c.pos + 3)).bind fun b3 =>
    let val := val ||| intToULong (shlInt b3 24)
    -- *pLength -= 4;
    some { val := val, cur := { c with pos := c.pos + 4, len := c.len - 4 }, asserted := false }
  else
    -- ASSERT(false); val = (unsigned long) -1;
    some { val := 2 ^ ulongBits - 1, cur := c, asserted := true }

/-- The function `Reformat::Get16LE`: `*buf | *(buf+1) << 8`, returned as `unsigned short`. -/
def Get16LE (mem : List Byte) (buf : Nat) : Option Nat :=
  (deref mem buf).bind fun b0 =>
  (deref mem (buf + 1)).bind fun b1 =>
  some (intToUShort (b0.val ||| shlInt b1 8))

/-- The function `Reformat::Get32LE`: `*buf | *(buf+1) << 8 | *(buf+2) << 16 | *(buf+3) << 24`,
returned as `unsigned long`. -/
def Get32LE (mem : List Byte) (buf : Nat) : Option Nat :=
  (deref mem buf).bind fun b0 =>
  (deref mem (buf + 1)).bind fun b1 =>
  (deref mem (buf + 2)).bind fun b2 =>
  (deref mem (buf + 3)).bind fun b3 =>
  some (intToULong (b0.val ||| shlInt b1 8 ||| shlInt b2 16 ||| shlInt b3 24))

/-- The function `Reformat::Get16BE`: `*buf << 8 | *(buf+1)`, returned as `unsigned short`. -/
def Get16BE (mem : List Byte) (buf : Nat) : Option Nat :=
  (deref mem buf).bind fun b0 =>
  (deref mem (buf + 1)).bind fun b1 =>
  some (intToUShort (shlInt b0 8 ||| b1.val))

/-- The function `Reformat::Get32BE`: `*buf << 24 | *(buf+1) << 16 | *(buf+2) << 8 | *(buf+3)`,
returned as `unsigned long`. -/
def Get32BE (mem : List Byte) (buf : Nat) : Option Nat :=
  (deref mem buf).bind fun b0 =>
  (deref mem (buf + 1)).bind fun b1 =>
  (deref mem (buf + 2)).bind fun b2 =>
  (deref mem (buf + 3)).bind fun b3 =>
  some (intToULong (shlInt b0 24 ||| shlInt b1 16 ||| shlInt b2 8 ||| b3.val))

/-- The function `Reformat::Get16`. -/
def Get16 (mem : List Byte) (buf : Nat) (littleEndian : Bool) : Option Nat :=
  if littleEndian then Get16LE mem buf else Get16BE mem buf

/-- The function `Reformat::Get32`. -/
def Get32 (mem : List Byte) (buf : Nat) (littleEndian : Bool) : Option Nat :=
  if littleEndian then Get32LE mem buf else Get32BE mem buf

/-- The three consuming readers, as the calls a converter can make on a cursor. -/
inductive ReadOp where
  | read8
  | read16
  | read32
deriving DecidableEq

/-- The call a `ReadOp` stands for. -/
def ReadOp.apply : ReadOp → Cursor → Option ReadResult
  | .read8, c => Read8 c
  | .read16, c => Read16 c
  | .read32, c => Read32 c

/-- The offsets the call dereferences, read off the source: `Read8` evaluates
`*(*pBuf)++` once when `*pLength > 0`, `Read16` twice when `*pLength >= 2`,
`Read32` four times when `*pLength >= 4`, and the `else` branches dereference
nothing. -/
def ReadOp.derefs : ReadOp → Cursor → List Nat
  | .read8, c => if c.len > 0 then [c.pos] else []
  | .read16, c => if c.len ≥ 2 then [c.pos, c.pos + 1] else []
  | .read32, c => if c.len ≥ 4 then [c.pos, c.pos + 1, c.pos + 2, c.pos + 3] else []

/-- A cursor at the start of a buffer, with the whole buffer remaining. -/
def Cursor.start (mem : List Byte) : Cursor :=
  { mem := mem, pos := 0, len := mem.length }

/-- A sequence of reader calls on one cursor, each call working on the cursor
the previous one left; `none` when a call dereferences outside the buffer. -/
def runReads : List ReadOp → Cursor → Option Cursor
  | [], c => some c
  | op :: ops, c => (op.apply c).bind fun r => runReads ops r.cur

/-- The relation between a cursor and the buffer of `n = mem.length` bytes it
was started on: same buffer, `offset + remaining = n`, `remaining` not
negative. -/
def CursorInv (mem : List Byte) (c : Cursor) : Prop :=
  c.mem = mem ∧ (c.pos : Int) + c.len = mem.length ∧ 0 ≤ c.len

/-! ## `class ReformatGraphics` -/

/-- The two kinds of run a control byte can select. -/
inductive RunKind where
  | LITERAL
  | REPEATED
deriving DecidableEq

/-- The failures of the run-length unpacker named by the specification. -/
inductive UnpackError where
  | OverflowError
  | TruncatedInputError
deriving DecidableEq

/-- What the unpacker leaves behind: the bytes written to the destination, and
the failure if there was one. -/
structure UnpackResult where
  /-- The bytes written to the destination, in order. -/
  written : List Byte
  /-- The failure, `none` when the call succeeded. -/
  error : Option UnpackError
deriving DecidableEq

/-- Modelled from the spec: the body of `ReformatGraphics::UnpackBytes` is
defined outside this header, which only declares it.  Each control byte selects
a LITERAL run (copy the next `n` source bytes verbatim) or a REPEATED run
(replicate the one following byte `n` times); how a control byte gives the kind
and the length `n` is a per-format parameter, `runOf`.  A run cut short by the
end of the input fails with `TruncatedInputError`; a LITERAL run that would
exceed the capacity fails with `OverflowError`; a REPEATED run that would exceed
the capacity is truncated at the capacity and decoding stops.  The argument
`dst` is what has been written so far. -/
def unpackFrom (runOf : Byte → RunKind × Nat) (capacity : Nat) (src : List Byte)
    (dst : List Byte) : UnpackResult :=
  match src with
  | [] => { written := dst, error := none }
  | ctl :: rest =>
    match runOf ctl with
    | (.LITERAL, n) =>
      if rest.length < n then { written := dst, error := some .TruncatedInputError }
      else if capacity < dst.length + n then { written := dst, error := some .OverflowError }
      else unpackFrom runOf capacity (rest.drop n) (dst ++ rest.take n)
    | (.REPEATED, n) =>
      match rest with
      | [] => { written := dst, error := some .TruncatedInputError }
      | b :: rest' =>
        if capacity < dst.length + n then
          { written := dst ++ List.replicate (capacity - dst.length) b, error := none }
        else unpackFrom runOf capacity rest' (dst ++ List.replicate n b)
termination_by src.length
decreasing_by
  all_goals simp_wf
  all_goals omega

/-- Modelled from the spec: `ReformatGraphics::UnpackBytes`, declared in this
header and defined outside it, decoding `src` into an empty destination of
`capacity` bytes; the number of bytes written is the length of `written`. -/
def UnpackBytes (runOf : Byte → RunKind × Nat) (capacity : Nat) (src : List Byte) :
    UnpackResult :=
  unpackFrom runOf capacity src []

/-- A sample control byte format, that of PackBits: a control byte `c` below
128 announces `c + 1` literal bytes, a control byte of 128 or more announces the
next byte repeated `257 - c` times. -/
def packBitsRun (c : Byte) : RunKind × Nat :=
  if c.val < 128 then (.LITERAL, c.val + 1) else (.REPEATED, 257 - c.val)

/-! ## `class ReformatText` -/

/-- The enumeration `ReformatText::ParagraphJustify`. -/
inductive ParagraphJustify where
  | kJustifyLeft
  | kJustifyRight
  | kJustifyCenter
  | kJustifyFull
deriving DecidableEq

/-- The enumeration `ReformatText::TextColor`. -/
inductive TextColor where
  | kColorNone
  | kColorBlack
  | kColorBlue
  | kColorCyan
  | kColorGreen
  | kColorPink
  | kColorRed
  | kColorYellow
  | kColorWhite
  | kColorMediumBlue
  | kColorMediumAqua
  | kColorMediumGreen
  | kColorMagena
  | kColorMediumRed
  | kColorOlive
  | kColorMediumGrey
  | kColorLightGrey
  | kColorDarkGrey
  | kColorOrange
deriving DecidableEq

/-- Modelled from the spec: the class `ExpandBuffer` is declared outside this
header.  It is the append-only accumulated output, so it is the list of the
bytes written so far. -/
abbrev ExpandBuffer := List Byte

/-- Modelled from the spec: `ExpandBuffer::Printf` is defined outside this
header.  It appends the formatted text to the buffer; `formatted` is the text
the format string and its arguments produce. -/
def ExpandBuffer.Printf (self : ExpandBuffer) (formatted : List Byte) : ExpandBuffer :=
  self ++ formatted

/-- The data members of `ReformatText`. -/
structure ReformatText where
  /-- The output buffer. -/
  fExpBuf : ExpandBuffer
  /-- Whether RTF is being generated. -/
  fUseRTF : Bool
  /-- Left margin, in 1/10th inch. -/
  fLeftMargin : Int
  /-- Right margin, in 1/10th inch. -/
  fRightMargin : Int
  /-- Point size. -/
  fPointSize : Int
  /-- Point size before the IIgs multiplier. -/
  fPreMultPointSize : Int
  /-- The IIgs font size multiplier, a `float`; this header only stores `1.0`. -/
  fGSFontSizeMult : Rat
  /-- Bold is on. -/
  fBoldEnabled : Bool
  /-- Italic is on. -/
  fItalicEnabled : Bool
  /-- Underline is on. -/
  fUnderlineEnabled : Bool
  /-- Superscript is on. -/
  fSuperscriptEnabled : Bool
  /-- Subscript is on. -/
  fSubscriptEnabled : Bool
  /-- Paragraph justification. -/
  fJustified : ParagraphJustify
  /-- Text colour. -/
  fTextColor : TextColor
deriving DecidableEq

/-- The constructor `ReformatText::ReformatText(void)`; the output buffer starts
empty. -/
def ReformatText.new : ReformatText :=
  { fExpBuf := []
    fUseRTF := true
    fLeftMargin := 0
    fRightMargin := 0
    fPointSize := 8
    fPreMultPointSize := 8
    fGSFontSizeMult := 1
    fJustified := .kJustifyLeft
    fBoldEnabled := false
    fItalicEnabled := false
    fUnderlineEnabled := false
    fSuperscriptEnabled := false
    fSubscriptEnabled := false
    fTextColor := .kColorNone }

/-- The character `'.'`. -/
def chDot : Byte := 0x2E

/-- The backslash character. -/
def chBackslash : Byte := 0x5C

/-- The opening brace character. -/
def chLBrace : Byte := 0x7B

/-- The closing brace character. -/
def chRBrace : Byte := 0x7D

/-- The double quote character. -/
def chDQuote : Byte := 0x22

/-- The tab character. -/
def chTab : Byte := 0x09

/-- The function `ReformatText::PrintableChar`: return a low-ASCII character so we can read
high-ASCII files. -/
def PrintableChar (ch : Byte) : Byte :=
  if ch < 0x20 then chDot
  else if ch < 0x7f then ch
  else if ch < 0xa0 || ch == 0xff then chDot
  else ch &&& 0x7f

/-- The function `ReformatText::RTFPrintExtChar`: output an RTF-escaped char, allowing high
ASCII. -/
def ReformatText.RTFPrintExtChar (self : ReformatText) (ch : Byte) : ReformatText :=
  if ch == chBackslash then
    { self with fExpBuf := self.fExpBuf.Printf [chBackslash, chBackslash] }
  else if ch == chLBrace then
    { self with fExpBuf := self.fExpBuf.Printf [chBackslash, chLBrace] }
  else if ch == chRBrace then
    { self with fExpBuf := self.fExpBuf.Printf [chBackslash, chRBrace] }
  else
    -- Printf("%c", ch)
    { self with fExpBuf := self.fExpBuf.Printf [ch] }

/-- The function `ReformatText::RTFPrintChar`: output an RTF-escaped char. -/
def ReformatText.RTFPrintChar (self : ReformatText) (ch : Byte) : ReformatText :=
  let ch := PrintableChar ch
  self.RTFPrintExtChar ch

/-- The function `ReformatText::BufPrintQChar`: output a char, doubling up double quotes. -/
def ReformatText.BufPrintQChar (self : ReformatText) (ch : Byte) : ReformatText :=
  if ch == chDQuote then
    { self with fExpBuf := self.fExpBuf.Printf [chDQuote, chDQuote] }
  else
    -- Printf("%c", ch)
    { self with fExpBuf := self.fExpBuf.Printf [ch] }

/-- The function `ReformatText::ConvertGSChar`: convert IIgs documents.  The table
`kGSCharConv` is defined outside this header and is a parameter; the lookup is
`none` when the index lies outside the table. -/
def ConvertGSChar (kGSCharConv : List Byte) (ch : Byte) : Option Byte :=
  if ch < 128 then some ch
  else kGSCharConv[ch.val - 128]?

/-- A text routed byte by byte through `RTFPrintChar`. -/
def ReformatText.printChars (self : ReformatText) (text : List Byte) : ReformatText :=
  text.foldl ReformatText.RTFPrintChar self

/-- The rule the specification gives for `ToPrintable(byte)`: values below
`0x20`, or in `0x7F..0x9F`, or equal to `0xFF` map to `'.'`; `0x20..0x7E` pass
through; `0xA0..0xFE` map via `byte & 0x7F`.  A byte none of the three cases
covers has no image. -/
def ToPrintableSpec (b : Byte) : Option Byte :=
  if b < 0x20 ∨ (0x7F ≤ b ∧ b ≤ 0x9F) ∨ b = 0xFF then some chDot
  else if 0x20 ≤ b ∧ b ≤ 0x7E then some b
  else if 0xA0 ≤ b ∧ b ≤ 0xFE then some (b &&& 0x7F)
  else none

/-- The bytes `RTFPrintChar(ch)` appends, taken from a call on a fresh object. -/
def rtfText (ch : Byte) : List Byte :=
  (ReformatText.new.RTFPrintChar ch).fExpBuf

/-- Whether a byte is one of the three reserved characters backslash, opening
brace, closing brace. -/
def isReserved (ch : Byte) : Bool :=
  ch == chBackslash || ch == chLBrace || ch == chRBrace

/-- A unit of escaped text: one byte that is not reserved, or a backslash
followed by a reserved byte. -/
def isRtfUnit : List Byte → Bool
  | [c] => !isReserved c
  | [p, r] => p == chBackslash && isReserved r
  | _ => false

/-- The character a unit stands for, its escape prefix removed. -/
def unitChar : List Byte → Byte
  | [c] => c
  | [_, r] => r
  | _ => 0

/-- Decoding of escaped text, left to right: a backslash must be followed by a
reserved byte and stands for it, any other reserved byte is an error, every
other byte stands for itself. -/
def rtfUnescape : List Byte → Option (List Byte)
  | [] => some []
  | [a] => if isReserved a then none else some [a]
  | a :: b :: rest =>
    if a = chBackslash then
      if isReserved b then (rtfUnescape rest).map fun t => b :: t else none
    else if isReserved a then none
    else (rtfUnescape (b :: rest)).map fun t => a :: t

/-- A text routed byte by byte through `BufPrintQChar`. -/
def ReformatText.printQChars (self : ReformatText) (text : List Byte) : ReformatText :=
  text.foldl ReformatText.BufPrintQChar self

/-- The bytes `BufPrintQChar(ch)` appends, taken from a call on a fresh object. -/
def csvText (ch : Byte) : List Byte :=
  (ReformatText.new.BufPrintQChar ch).fExpBuf

/-- Collapsing each doubled double quote to one, left to right. -/
def collapseQuotes : List Byte → List Byte
  | [] => []
  | [a] => [a]
  | a :: b :: rest =>
    if a = chDQuote ∧ b = chDQuote then chDQuote :: collapseQuotes rest
    else a :: collapseQuotes (b :: rest)

/-- The enumeration `ReformatText::RTFFont`. -/
inductive RTFFont where
  | kFontCourierNew
  | kFontTimesRoman
  | kFontArial
  | kFontSymbol
deriving DecidableEq

/-- The bit `kQDStyleBold` of `ReformatText::QDFontStyle`. -/
def kQDStyleBold : Byte := 0x01

/-- The bit `kQDStyleItalic` of `ReformatText::QDFontStyle`. -/
def kQDStyleItalic : Byte := 0x02

/-- The bit `kQDStyleUnderline` of `ReformatText::QDFontStyle`. -/
def kQDStyleUnderline : Byte := 0x04

/-- The bit `kQDStyleOutline` of `ReformatText::QDFontStyle`. -/
def kQDStyleOutline : Byte := 0x08

/-- The bit `kQDStyleShadow` of `ReformatText::QDFontStyle`. -/
def kQDStyleShadow : Byte := 0x10

/-- The bit `kQDStyleReserved` of `ReformatText::QDFontStyle`. -/
def kQDStyleReserved : Byte := 0x20

/-- The bit `kQDStyleSuperscript` of `ReformatText::QDFontStyle`. -/
def kQDStyleSuperscript : Byte := 0x40

/-- The bit `kQDStyleSubscript` of `ReformatText::QDFontStyle`. -/
def kQDStyleSubscript : Byte := 0x80

/-- The style operations `ReformatText` declares that set one attribute, with
their arguments: every operation from `RTFBoldOn` to `RTFSetGSFontSize`.  The
remaining one, `RTFSetGSFontStyle`, sets several attributes at once and is a
constructor of `StyleCall`. -/
inductive AttrCall where
  | RTFBoldOn
  | RTFBoldOff
  | RTFItalicOn
  | RTFItalicOff
  | RTFUnderlineOn
  | RTFUnderlineOff
  | RTFParaLeft
  | RTFParaRight
  | RTFParaCenter
  | RTFParaJustify
  | RTFLeftMargin (margin : Int)
  | RTFRightMargin (margin : Int)
  | RTFSubscriptOn
  | RTFSubscriptOff
  | RTFSuperscriptOn
  | RTFSuperscriptOff
  | RTFSetColor (color : TextColor)
  | RTFSetFont (font : RTFFont)
  | RTFSetFontSize (points : Int)
  | RTFSetGSFont (family : Fin 65536)
  | RTFSetGSFontSize (points : Int)
deriving DecidableEq

/-- Modelled from the spec: whether the attribute a style call asks for is
already at the requested value, the attribute of each call being the data
member of the class it is named after.  The class has no data member for the
font, so `RTFSetFont` and `RTFSetGSFont` have no current value to compare
with; the attribute of `RTFSetGSFontSize` is the point size before the IIgs
multiplier. -/
def AttrCall.atRequested : AttrCall → ReformatText → Bool
  | .RTFBoldOn, s => s.fBoldEnabled
  | .RTFBoldOff, s => !s.fBoldEnabled
  | .RTFItalicOn, s => s.fItalicEnabled
  | .RTFItalicOff, s => !s.fItalicEnabled
  | .RTFUnderlineOn, s => s.fUnderlineEnabled
  | .RTFUnderlineOff, s => !s.fUnderlineEnabled
  | .RTFParaLeft, s => s.fJustified == .kJustifyLeft
  | .RTFParaRight, s => s.fJustified == .kJustifyRight
  | .RTFParaCenter, s => s.fJustified == .kJustifyCenter
  | .RTFParaJustify, s => s.fJustified == .kJustifyFull
  | .RTFLeftMargin margin, s => s.fLeftMargin == margin
  | .RTFRightMargin margin, s => s.fRightMargin == margin
  | .RTFSubscriptOn, s => s.fSubscriptEnabled
  | .RTFSubscriptOff, s => !s.fSubscriptEnabled
  | .RTFSuperscriptOn, s => s.fSuperscriptEnabled
  | .RTFSuperscriptOff, s => !s.fSuperscriptEnabled
  | .RTFSetColor color, s => s.fTextColor == color
  | .RTFSetFont _, _ => false
  | .RTFSetFontSize points, s => s.fPointSize == points
  | .RTFSetGSFont _, _ => false
  | .RTFSetGSFontSize points, s => s.fPreMultPointSize == points

/-- Modelled from the spec: the attribute a style call asks for, set to the
requested value.  The font calls have no data member to set. -/
def AttrCall.setAttr : AttrCall → ReformatText → ReformatText
  | .RTFBoldOn, s => { s with fBoldEnabled := true }
  | .RTFBoldOff, s => { s with fBoldEnabled := false }
  | .RTFItalicOn, s => { s with fItalicEnabled := true }
  | .RTFItalicOff, s => { s with fItalicEnabled := false }
  | .RTFUnderlineOn, s => { s with fUnderlineEnabled := true }
  | .RTFUnderlineOff, s => { s with fUnderlineEnabled := false }
  | .RTFParaLeft, s => { s with fJustified := .kJustifyLeft }
  | .RTFParaRight, s => { s with fJustified := .kJustifyRight }
  | .RTFParaCenter, s => { s with fJustified := .kJustifyCenter }
  | .RTFParaJustify, s => { s with fJustified := .kJustifyFull }
  | .RTFLeftMargin margin, s => { s with fLeftMargin := margin }
  | .RTFRightMargin margin, s => { s with fRightMargin := margin }
  | .RTFSubscriptOn, s => { s with fSubscriptEnabled := true }
  | .RTFSubscriptOff, s => { s with fSubscriptEnabled := false }
  | .RTFSuperscriptOn, s => { s with fSuperscriptEnabled := true }
  | .RTFSuperscriptOff, s => { s with fSuperscriptEnabled := false }
  | .RTFSetColor color, s => { s with fTextColor := color }
  | .RTFSetFont _, s => s
  | .RTFSetFontSize points, s => { s with fPointSize := points }
  | .RTFSetGSFont _, s => s
  | .RTFSetGSFontSize points, s => { s with fPreMultPointSize := points }

/-- Modelled from the spec: the bodies of the style operations are defined
outside this header, which only declares them.  A call whose attribute is
already at the requested value does nothing.  Otherwise the call appends the
escape of the operation to the output and sets the attribute.  The escape
texts are not part of the header either; `esc` gives the escape of each
call. -/
def AttrCall.emit (esc : AttrCall → List Byte) (op : AttrCall) (s : ReformatText) :
    ReformatText :=
  if op.atRequested s then s
  else op.setAttr { s with fExpBuf := s.fExpBuf.Printf (esc op) }

/-- Modelled from the spec: a call that sets one attribute.  Superscript and
subscript are mutually exclusive: enabling one first disables the other if it
is active; every other call only concerns its own attribute. -/
def AttrCall.apply (esc : AttrCall → List Byte) (op : AttrCall) (s : ReformatText) :
    ReformatText :=
  match op with
  | .RTFSuperscriptOn =>
    if s.fSuperscriptEnabled then s
    else AttrCall.RTFSuperscriptOn.emit esc (AttrCall.RTFSubscriptOff.emit esc s)
  | .RTFSubscriptOn =>
    if s.fSubscriptEnabled then s
    else AttrCall.RTFSubscriptOn.emit esc (AttrCall.RTFSuperscriptOff.emit esc s)
  | op => op.emit esc s

/-- Modelled from the spec: the toggle calls a QuickDraw II style mask stands
for, in the order of the bits of `QDFontStyle`: each of bold, italic,
underline, superscript and subscript is turned on when its bit is set and off
when it is clear.  The class has no operation for the outline, shadow and
reserved bits. -/
def gsFontStyleCalls (qdStyle : Byte) : List AttrCall :=
  [ if qdStyle &&& kQDStyleBold ≠ 0 then .RTFBoldOn else .RTFBoldOff,
    if qdStyle &&& kQDStyleItalic ≠ 0 then .RTFItalicOn else .RTFItalicOff,
    if qdStyle &&& kQDStyleUnderline ≠ 0 then .RTFUnderlineOn else .RTFUnderlineOff,
    if qdStyle &&& kQDStyleSuperscript ≠ 0 then .RTFSuperscriptOn else .RTFSuperscriptOff,
    if qdStyle &&& kQDStyleSubscript ≠ 0 then .RTFSubscriptOn else .RTFSubscriptOff ]

/-- Every style operation `ReformatText` declares, `RTFBoldOn` to
`RTFSetGSFontStyle`: the calls that set one attribute, and
`RTFSetGSFontStyle(qdStyle)`, which takes a bit mask. -/
inductive StyleCall where
  | attr (call : AttrCall)
  | RTFSetGSFontStyle (qdStyle : Byte)
deriving DecidableEq

/-- Modelled from the spec: a style call on the emitter.  `RTFSetGSFontStyle`
makes the toggle calls its mask stands for, one after the other, so that a
mask asking for superscript and subscript together goes through the same
mutual exclusion as the single calls. -/
def StyleCall.apply (esc : AttrCall → List Byte) : StyleCall → ReformatText → ReformatText
  | .attr call, s => call.apply esc s
  | .RTFSetGSFontStyle qdStyle, s =>
    (gsFontStyleCalls qdStyle).foldl (fun s call => call.apply esc s) s

/-- A sequence of style calls made on the emitter, in order. -/
def runStyleCalls (esc : AttrCall → List Byte) (calls : List StyleCall)
    (s : ReformatText) : ReformatText :=
  calls.foldl (fun s op => op.apply esc s) s

/-- A sample escape text, the same one-byte escape for every call. -/
def sampleEscape (_op : AttrCall) : List Byte := [chBackslash]

/-! ## Arithmetic of the decoders -/

theorem shlInt_eq (b : Byte) (k : Nat) (hk : k ≤ 24) : shlInt b k = b.val * 2 ^ k := by
  unfold shlInt intBits
  rw [Nat.shiftLeft_eq]
  apply Nat.mod_eq_of_lt
  have hb : b.val < 256 := b.isLt
  calc b.val * 2 ^ k ≤ b.val * 2 ^ 24 :=
        Nat.mul_le_mul_left _ (Nat.pow_le_pow_right (by decide) hk)
    _ < 2 ^ 32 := by omega

theorem intToULong_eq (p : Nat) (hp : p < 2 ^ 32) : intToULong p = p := by
  unfold intToULong intBits ulongBits
  split <;> omega

theorem or_mul_pow (a b k : Nat) (ha : a < 2 ^ k) : a ||| b * 2 ^ k = a + b * 2 ^ k := by
  rw [Nat.or_comm, Nat.mul_comm, ← Nat.mul_add_lt_is_or ha, Nat.add_comm]


theorem le16_value (b0 b1 : Byte) :
    intToUShort (b0.val ||| shlInt b1 8) = b0.val + 256 * b1.val := by
  have h0 : b0.val < 2 ^ 8 := b0.isLt
  have h1 : b1.val < 256 := b1.isLt
  rw [shlInt_eq b1 8 (by decide), or_mul_pow _ _ _ h0]
  unfold intToUShort ushortBits
  rw [Nat.mod_eq_of_lt] <;> omega

theorem le32_or (b0 b1 b2 b3 : Byte) :
    b0.val ||| shlInt b1 8 ||| shlInt b2 16 ||| shlInt b3 24
      = b0.val + 2 ^ 8 * b1.val + 2 ^ 16 * b2.val + 2 ^ 24 * b3.val := by
  have h0 : b0.val < 2 ^ 8 := b0.isLt
  have h1 : b1.val < 256 := b1.isLt
  have h2 : b2.val < 256 := b2.isLt
  have h3 : b3.val < 256 := b3.isLt
  rw [shlInt_eq b1 8 (by decide), shlInt_eq b2 16 (by decide), shlInt_eq b3 24 (by decide)]
  rw [or_mul_pow _ _ _ h0, or_mul_pow _ _ 16 (by omega), or_mul_pow _ _ 24 (by omega)]
  omega

theorem le32_lt (b0 b1 b2 b3 : Byte) :
    b0.val + 2 ^ 8 * b1.val + 2 ^ 16 * b2.val + 2 ^ 24 * b3.val < 2 ^ 32 := by
  have h0 : b0.val < 256 := b0.isLt
  have h1 : b1.val < 256 := b1.isLt
  have h2 : b2.val < 256 := b2.isLt
  have h3 : b3.val < 256 := b3.isLt
  omega

theorem le32_read_value (b0 b1 b2 b3 : Byte) :
    b0.val ||| intToULong (shlInt b1 8) ||| intToULong (shlInt b2 16)
        ||| intToULong (shlInt b3 24)
      = b0.val + 2 ^ 8 * b1.val + 2 ^ 16 * b2.val + 2 ^ 24 * b3.val := by
  have hs : ∀ (b : Byte) (k : Nat), shlInt b k < 2 ^ 32 := fun b k =>
    Nat.mod_lt _ (by decide)
  rw [intToULong_eq _ (hs b1 8), intToULong_eq _ (hs b2 16), intToULong_eq _ (hs b3 24)]
  exact le32_or b0 b1 b2 b3

theorem le32_get_value (b0 b1 b2 b3 : Byte) :
    intToULong (b0.val ||| shlInt b1 8 ||| shlInt b2 16 ||| shlInt b3 24)
      = b0.val + 2 ^ 8 * b1.val + 2 ^ 16 * b2.val + 2 ^ 24 * b3.val := by
  rw [le32_or, intToULong_eq _ (le32_lt b0 b1 b2 b3)]

/-- C1: with enough bytes remaining the consuming readers return the
little-endian value of the next bytes.  `Read8` with remaining at least 1
returns `b0`; `Read16` with remaining at least 2 returns `b0 + 256*b1`, the
value `Get16LE` gives at the cursor; `Read32` with remaining at least 4 returns
`b0 + 2^8*b1 + 2^16*b2 + 2^24*b3`, the value `Get32LE` gives at the cursor; the
bytes `[0x34,0x12]` read as `0x1234` little-endian and `Get16BE` gives
`0x3412`. -/
theorem C1_readers_return_little_endian (c : Cursor) (b0 b1 b2 b3 : Byte) :
    (1 ≤ c.len → deref c.mem c.pos = some b0 →
      (Read8 c).map ReadResult.val = some b0.val) ∧
    (2 ≤ c.len → deref c.mem c.pos = some b0 → deref c.mem (c.pos + 1) = some b1 →
      (Read16 c).map ReadResult.val = some (b0.val + 256 * b1.val) ∧
      Get16LE c.mem c.pos = some (b0.val + 256 * b1.val)) ∧
    (4 ≤ c.len → deref c.mem c.pos = some b0 → deref c.mem (c.pos + 1) = some b1 →
      deref c.mem (c.pos + 2) = some b2 → deref c.mem (c.pos + 3) = some b3 →
      (Read32 c).map ReadResult.val
          = some (b0.val + 2 ^ 8 * b1.val + 2 ^ 16 * b2.val + 2 ^ 24 * b3.val) ∧
      Get32LE c.mem c.pos
          = some (b0.val + 2 ^ 8 * b1.val + 2 ^ 16 * b2.val + 2 ^ 24 * b3.val)) ∧
    (Read16 { mem := [0x34, 0x12], pos := 0, len := 2 }).map ReadResult.val = some 0x1234 ∧
    Get16LE [0x34, 0x12] 0 = some 0x1234 ∧
    Get16BE [0x34, 0x12] 0 = some 0x3412 := by
  refine ⟨?_, ?_, ?_, by decide, by decide, by decide⟩
  · intro hl h0
    have hpos : c.len > 0 := by omega
    simp [Read8, hpos, h0]
  · intro hl h0 h1
    simp [Read16, Get16LE, hl, h0, h1, le16_value]
  · intro hl h0 h1 h2 h3
    simp only [Read32, Get32LE, hl, h0, h1, h2, h3, le32_read_value, le32_get_value]
    simp

/-- Witness for C1: a four-byte buffer whose most significant byte has its high
bit set. -/
theorem C1_readers_return_little_endian_witness :
    (Read8 { mem := [0x34, 0x12, 0x56, 0xF8], pos := 0, len := 4 }).map ReadResult.val
      = some 0x34 ∧
    (Read16 { mem := [0x34, 0x12, 0x56, 0xF8], pos := 0, len := 4 }).map ReadResult.val
      = some 0x1234 ∧
    (Read32 { mem := [0x34, 0x12, 0x56, 0xF8], pos := 0, len := 4 }).map ReadResult.val
      = some 0xF8561234 := by
  have h := C1_readers_return_little_endian
    { mem := [0x34, 0x12, 0x56, 0xF8], pos := 0, len := 4 } 0x34 0x12 0x56 0xF8
  exact ⟨h.1 (by decide) rfl, (h.2.1 (by decide) rfl rfl).1,
    (h.2.2.1 (by decide) rfl rfl rfl rfl).1⟩

/-! ## Cursor movement -/

theorem deref_of_lt (mem : List Byte) (i : Nat) (h : i < mem.length) :
    ∃ b, deref mem i = some b := by
  unfold deref
  exact ⟨mem[i], List.getElem?_eq_getElem h⟩

theorem deref_isSome_iff (mem : List Byte) (i : Nat) :
    (deref mem i).isSome ↔ i < mem.length := by
  unfold deref
  constructor
  · intro h
    by_contra hn
    rw [List.getElem?_eq_none (by omega)] at h
    exact absurd h (by simp)
  · intro h
    rw [List.getElem?_eq_getElem h]
    rfl

theorem Read8_of_le (c : Cursor) (hl : 1 ≤ c.len) (hm : c.pos + 1 ≤ c.mem.length) :
    ∃ r, Read8 c = some r ∧ r.asserted = false ∧
      r.cur = { mem := c.mem, pos := c.pos + 1, len := c.len - 1 } := by
  obtain ⟨b0, h0⟩ := deref_of_lt c.mem c.pos (by omega)
  have hpos : c.len > 0 := by omega
  simp [Read8, hpos, h0]

theorem Read16_of_le (c : Cursor) (hl : 2 ≤ c.len) (hm : c.pos + 2 ≤ c.mem.length) :
    ∃ r, Read16 c = some r ∧ r.asserted = false ∧
      r.cur = { mem := c.mem, pos := c.pos + 2, len := c.len - 2 } := by
  obtain ⟨b0, h0⟩ := deref_of_lt c.mem c.pos (by omega)
  obtain ⟨b1, h1⟩ := deref_of_lt c.mem (c.pos + 1) (by omega)
  simp [Read16, hl, h0, h1]

theorem Read32_of_le (c : Cursor) (hl : 4 ≤ c.len) (hm : c.pos + 4 ≤ c.mem.length) :
    ∃ r, Read32 c = some r ∧ r.asserted = false ∧
      r.cur = { mem := c.mem, pos := c.pos + 4, len := c.len - 4 } := by
  obtain ⟨b0, h0⟩ := deref_of_lt c.mem c.pos (by omega)
  obtain ⟨b1, h1⟩ := deref_of_lt c.mem (c.pos + 1) (by omega)
  obtain ⟨b2, h2⟩ := deref_of_lt c.mem (c.pos + 2) (by omega)
  obtain ⟨b3, h3⟩ := deref_of_lt c.mem (c.pos + 3) (by omega)
  simp [Read32, hl, h0, h1, h2, h3]

/-- C2: a successful `Read8` / `Read16` / `Read32` (remaining at least 1 / 2 / 4,
the bytes being in the buffer) advances the buffer cursor by exactly 1 / 2 / 4
bytes, decrements the remaining-length counter by the same amount, leaves the
buffer contents untouched and does not reach the assertion. -/
theorem C2_successful_read_advances (c : Cursor) :
    (1 ≤ c.len → c.pos + 1 ≤ c.mem.length →
      ∃ r, Read8 c = some r ∧ r.asserted = false ∧
        r.cur = { mem := c.mem, pos := c.pos + 1, len := c.len - 1 }) ∧
    (2 ≤ c.len → c.pos + 2 ≤ c.mem.length →
      ∃ r, Read16 c = some r ∧ r.asserted = false ∧
        r.cur = { mem := c.mem, pos := c.pos + 2, len := c.len - 2 }) ∧
    (4 ≤ c.len → c.pos + 4 ≤ c.mem.length →
      ∃ r, Read32 c = some r ∧ r.asserted = false ∧
        r.cur = { mem := c.mem, pos := c.pos + 4, len := c.len - 4 }) :=
  ⟨Read8_of_le c, Read16_of_le c, Read32_of_le c⟩

/-- Witness for C2: the three readers on a five-byte buffer, from offset 1. -/
theorem C2_successful_read_advances_witness :
    (∃ r, Read8 { mem := [1, 2, 3, 4, 5], pos := 1, len := 4 } = some r ∧
      r.asserted = false ∧ r.cur = { mem := [1, 2, 3, 4, 5], pos := 1 + 1, len := 4 - 1 }) ∧
    (∃ r, Read16 { mem := [1, 2, 3, 4, 5], pos := 1, len := 4 } = some r ∧
      r.asserted = false ∧ r.cur = { mem := [1, 2, 3, 4, 5], pos := 1 + 2, len := 4 - 2 }) ∧
    (∃ r, Read32 { mem := [1, 2, 3, 4, 5], pos := 1, len := 4 } = some r ∧
      r.asserted = false ∧ r.cur = { mem := [1, 2, 3, 4, 5], pos := 1 + 4, len := 4 - 4 }) := by
  have h := C2_successful_read_advances { mem := [1, 2, 3, 4, 5], pos := 1, len := 4 }
  exact ⟨h.1 (by decide) (by decide), h.2.1 (by decide) (by decide),
    h.2.2 (by decide) (by decide)⟩

/-- C3: the code at underflow.  With zero remaining length `Read8` reaches
`ASSERT(false)` and returns the value `0xFF`, the same value a successful read
of a byte `0xFF` returns; `Read16` with one byte left returns `0xFFFF` and
`Read32` with three bytes left, or a negative length, returns `0xFFFFFFFF`.
A value is returned in each case, not an error. -/
theorem C3_underflow_returns_sentinel :
    Read8 { mem := [0x41], pos := 0, len := 0 }
      = some { val := 0xFF, cur := { mem := [0x41], pos := 0, len := 0 }, asserted := true } ∧
    (Read8 { mem := [0x41], pos := 0, len := 0 }).map ReadResult.val
      = (Read8 { mem := [0xFF], pos := 0, len := 1 }).map ReadResult.val ∧
    (Read16 { mem := [0x41], pos := 0, len := 1 }).map ReadResult.val = some 0xFFFF ∧
    (Read32 { mem := [0x41, 0x42, 0x43], pos := 0, len := 3 }).map ReadResult.val
      = some 0xFFFFFFFF ∧
    (Read32 { mem := [0x41, 0x42, 0x43, 0x44], pos := 0, len := -1 }).map ReadResult.val
      = some 0xFFFFFFFF := by
  decide

/-! ## The cursor invariant -/

theorem CursorInv_start (mem : List Byte) : CursorInv mem (Cursor.start mem) := by
  simp [CursorInv, Cursor.start]

theorem apply_isSome_iff (op : ReadOp) (c : Cursor) :
    (op.apply c).isSome ↔ ∀ i ∈ op.derefs c, i < c.mem.length := by
  cases op
  · by_cases hl : c.len > 0
    · simp [ReadOp.apply, ReadOp.derefs, Read8, hl, deref_isSome_iff]
    · simp [ReadOp.apply, ReadOp.derefs, Read8, hl]
  · by_cases hl : c.len ≥ 2
    · simp only [ReadOp.apply, ReadOp.derefs, Read16, hl, if_true]
      constructor
      · intro h i hi
        cases h0 : deref c.mem c.pos with
        | none => simp [h0] at h
        | some b0 =>
          cases h1 : deref c.mem (c.pos + 1) with
          | none => simp [h0, h1] at h
          | some b1 =>
            have e0 := (deref_isSome_iff c.mem c.pos).1 (by simp [h0])
            have e1 := (deref_isSome_iff c.mem (c.pos + 1)).1 (by simp [h1])
            simp at hi
            omega
      · intro h
        obtain ⟨b0, h0⟩ := deref_of_lt c.mem c.pos (h _ (by simp))
        obtain ⟨b1, h1⟩ := deref_of_lt c.mem (c.pos + 1) (h _ (by simp))
        simp [h0, h1]
    · simp [ReadOp.apply, ReadOp.derefs, Read16, hl]
  · by_cases hl : c.len ≥ 4
    · simp only [ReadOp.apply, ReadOp.derefs, Read32, hl, if_true]
      constructor
      · intro h i hi
        cases h0 : deref c.mem c.pos with
        | none => simp [h0] at h
        | some b0 =>
          cases h1 : deref c.mem (c.pos + 1) with
          | none => simp [h0, h1] at h
          | some b1 =>
            cases h2 : deref c.mem (c.pos + 2) with
            | none => simp [h0, h1, h2] at h
            | some b2 =>
              cases h3 : deref c.mem (c.pos + 3) with
              | none => simp [h0, h1, h2, h3] at h
              | some b3 =>
                have e3 := (deref_isSome_iff c.mem (c.pos + 3)).1 (by simp [h3])
                simp at hi
                omega
      · intro h
        obtain ⟨b0, h0⟩ := deref_of_lt c.mem c.pos (h _ (by simp))
        obtain ⟨b1, h1⟩ := deref_of_lt c.mem (c.pos + 1) (h _ (by simp))
        obtain ⟨b2, h2⟩ := deref_of_lt c.mem (c.pos + 2) (h _ (by simp))
        obtain ⟨b3, h3⟩ := deref_of_lt c.mem (c.pos + 3) (h _ (by simp))
        simp [h0, h1, h2, h3]
    · simp [ReadOp.apply, ReadOp.derefs, Read32, hl]

theorem derefs_lt_of_inv (mem : List Byte) (op : ReadOp) (c : Cursor)
    (h : CursorInv mem c) : ∀ i ∈ op.derefs c, i < mem.length := by
  obtain ⟨_, hsum, _⟩ := h
  intro i hi
  cases op
  · by_cases hl : c.len > 0
    · simp [ReadOp.derefs, hl] at hi
      omega
    · simp [ReadOp.derefs, hl] at hi
  · by_cases hl : c.len ≥ 2
    · simp [ReadOp.derefs, hl] at hi
      omega
    · simp [ReadOp.derefs, hl] at hi
  · by_cases hl : c.len ≥ 4
    · simp [ReadOp.derefs, hl] at hi
      omega
    · simp [ReadOp.derefs, hl] at hi

theorem Read8_underflow (c : Cursor) (hl : c.len < 1) :
    Read8 c = some { val := 0xFF, cur := c, asserted := true } := by
  have h : ¬ c.len > 0 := by omega
  simp [Read8, h]

theorem Read16_underflow (c : Cursor) (hl : c.len < 2) :
    Read16 c = some { val := 0xFFFF, cur := c, asserted := true } := by
  have h : ¬ c.len ≥ 2 := by omega
  simp [Read16, h, ushortBits]

theorem Read32_underflow (c : Cursor) (hl : c.len < 4) :
    Read32 c = some { val := 0xFFFFFFFF, cur := c, asserted := true } := by
  have h : ¬ c.len ≥ 4 := by omega
  simp [Read32, h, ulongBits]

theorem apply_preserves_inv (mem : List Byte) (op : ReadOp) (c : Cursor)
    (h : CursorInv mem c) : ∃ r, op.apply c = some r ∧ CursorInv mem r.cur := by
  obtain ⟨hmem, hsum, hnn⟩ := h
  have hlen : ((c.mem.length : Nat) : Int) = (c.pos : Int) + c.len := by rw [hmem, hsum]
  cases op
  · by_cases hl : c.len > 0
    · obtain ⟨r, hr, _, hc⟩ := Read8_of_le c (by omega) (by omega)
      refine ⟨r, hr, ?_⟩
      rw [hc]
      refine ⟨hmem, ?_, ?_⟩ <;> simp <;> omega
    · exact ⟨_, Read8_underflow c (by omega), hmem, hsum, hnn⟩
  · by_cases hl : c.len ≥ 2
    · obtain ⟨r, hr, _, hc⟩ := Read16_of_le c hl (by omega)
      refine ⟨r, hr, ?_⟩
      rw [hc]
      refine ⟨hmem, ?_, ?_⟩ <;> simp <;> omega
    · exact ⟨_, Read16_underflow c (by omega), hmem, hsum, hnn⟩
  · by_cases hl : c.len ≥ 4
    · obtain ⟨r, hr, _, hc⟩ := Read32_of_le c hl (by omega)
      refine ⟨r, hr, ?_⟩
      rw [hc]
      refine ⟨hmem, ?_, ?_⟩ <;> simp <;> omega
    · exact ⟨_, Read32_underflow c (by omega), hmem, hsum, hnn⟩

theorem runReads_preserves_inv (mem : List Byte) (ops : List ReadOp) :
    ∀ c, CursorInv mem c → ∃ c', runReads ops c = some c' ∧ CursorInv mem c' := by
  induction ops with
  | nil => intro c h; exact ⟨c, rfl, h⟩
  | cons op ops ih =>
    intro c h
    obtain ⟨r, hr, hinv⟩ := apply_preserves_inv mem op c h
    obtain ⟨c', hc', hinv'⟩ := ih r.cur hinv
    exact ⟨c', by simp [runReads, hr, hc'], hinv'⟩

/-- C4: the byte cursor never reads past its declared remaining length.  For a
buffer of `n` bytes and a cursor started at offset 0 with remaining `n`, every
finite sequence of `Read8` / `Read16` / `Read32` calls runs to a cursor `c` on
the same buffer with `offset + remaining = n` and `0 ≤ remaining ≤ n`, and
every offset the next call (any of the three) dereferences is below `n`, so
that call does not leave the buffer either. -/
theorem C4_cursor_stays_in_bounds (mem : List Byte) (ops : List ReadOp) (op : ReadOp) :
    ∃ c, runReads ops (Cursor.start mem) = some c ∧
      c.mem = mem ∧ (c.pos : Int) + c.len = mem.length ∧
      0 ≤ c.len ∧ c.len ≤ mem.length ∧
      (∀ i ∈ op.derefs c, i < mem.length) ∧ (op.apply c).isSome := by
  obtain ⟨c, hc, hinv⟩ := runReads_preserves_inv mem ops _ (CursorInv_start mem)
  have hd := derefs_lt_of_inv mem op c hinv
  obtain ⟨hmem, hsum, hnn⟩ := hinv
  refine ⟨c, hc, hmem, hsum, hnn, by omega, hd, ?_⟩
  rw [apply_isSome_iff, hmem]
  exact hd

/-! ## Character mapping -/

set_option maxRecDepth 100000 in
/-- C5: for every input byte `PrintableChar` returns `'.'` or a byte in the
range `0x20..0x7E`; it never returns a control character, `0x7F`, or a byte with
the high bit set. -/
theorem C5_PrintableChar_range (b : Byte) :
    (PrintableChar b = chDot ∨ (0x20 ≤ PrintableChar b ∧ PrintableChar b ≤ 0x7E)) ∧
    ¬ PrintableChar b < 0x20 ∧ PrintableChar b ≠ 0x7F ∧ PrintableChar b < 0x80 := by
  revert b
  decide

set_option maxRecDepth 100000 in
/-- C6: `PrintableChar` equals the piecewise rule of the specification on all
256 bytes: a byte below `0x20`, in `0x7F..0x9F` or equal to `0xFF` maps to `'.'`,
a byte in `0x20..0x7E` maps to itself, a byte in `0xA0..0xFE` maps to
`b & 0x7F`, and every byte falls under one of the three cases. -/
theorem C6_PrintableChar_eq_spec (b : Byte) :
    ToPrintableSpec b = some (PrintableChar b) := by
  revert b
  decide

/-! ## Text output -/

theorem RTFPrintExtChar_eq (self : ReformatText) (ch : Byte) :
    self.RTFPrintExtChar ch =
      { self with fExpBuf := self.fExpBuf ++
          (if ch = chBackslash ∨ ch = chLBrace ∨ ch = chRBrace then [chBackslash, ch]
           else [ch]) } := by
  have e1 : chLBrace ≠ chBackslash := by decide
  have e2 : chRBrace ≠ chBackslash := by decide
  have e3 : chRBrace ≠ chLBrace := by decide
  unfold ReformatText.RTFPrintExtChar ExpandBuffer.Printf
  by_cases h1 : ch = chBackslash
  · simp [h1]
  · by_cases h2 : ch = chLBrace
    · simp [h2, e1]
    · by_cases h3 : ch = chRBrace
      · simp [h3, e2, e3]
      · simp [h1, h2, h3]

/-- C7: `RTFPrintExtChar` appends to the output buffer, for each of the three
reserved characters backslash, opening brace and closing brace, exactly two
bytes, one backslash followed by the character itself, and for every other byte
exactly that one byte; nothing else in the object changes.  `RTFPrintChar(ch)`
does exactly what `RTFPrintExtChar(PrintableChar(ch))` does. -/
theorem C7_RTFPrintExtChar_escapes (self : ReformatText) (ch : Byte) :
    self.RTFPrintExtChar ch =
      { self with fExpBuf := self.fExpBuf ++
          (if ch = chBackslash ∨ ch = chLBrace ∨ ch = chRBrace then [chBackslash, ch]
           else [ch]) } ∧
    self.RTFPrintChar ch = self.RTFPrintExtChar (PrintableChar ch) :=
  ⟨RTFPrintExtChar_eq self ch, rfl⟩

theorem RTFPrintChar_fExpBuf (self : ReformatText) (ch : Byte) :
    (self.RTFPrintChar ch).fExpBuf = self.fExpBuf ++ rtfText ch := by
  unfold rtfText ReformatText.RTFPrintChar
  rw [RTFPrintExtChar_eq, RTFPrintExtChar_eq]
  simp [ReformatText.new]

theorem printChars_fExpBuf (text : List Byte) : ∀ self : ReformatText,
    (self.printChars text).fExpBuf = self.fExpBuf ++ (text.map rtfText).flatten := by
  induction text with
  | nil => intro self; simp [ReformatText.printChars]
  | cons b bs ih =>
    intro self
    have h := ih (self.RTFPrintChar b)
    simp only [ReformatText.printChars, List.foldl_cons] at h ⊢
    rw [h, RTFPrintChar_fExpBuf]
    simp

/-- C8, as the code behaves: the text `A<tab>B{C}` routed through
`RTFPrintChar` comes out as `A.B\{C\}`.  The tab is emitted as the single byte
`'.'`, exactly what a literal period emits and without any backslash, so
nothing in the output marks a tab stop. -/
theorem C8_tab_is_not_marked :
    (ReformatText.new.printChars [0x41, chTab, 0x42, chLBrace, 0x43, chRBrace]).fExpBuf
      = [0x41, chDot, 0x42, chBackslash, chLBrace, 0x43, chBackslash, chRBrace] ∧
    ReformatText.new.RTFPrintChar chTab = ReformatText.new.RTFPrintChar chDot ∧
    rtfText chTab = [chDot] ∧ chBackslash ∉ rtfText chTab := by
  decide

/-- C8, amended: for every text routed byte by byte through `RTFPrintChar` the
output grows by the concatenation of what each byte emits; an opening brace
emits backslash and opening brace, a closing brace emits backslash and closing
brace, and a tab byte emits the single byte `'.'`.  The text `A<tab>B{C}` comes
out as `A.B\{C\}`. -/
theorem C8_printChars_escapes_braces (self : ReformatText) (text : List Byte) :
    (self.printChars text).fExpBuf = self.fExpBuf ++ (text.map rtfText).flatten ∧
    rtfText chLBrace = [chBackslash, chLBrace] ∧
    rtfText chRBrace = [chBackslash, chRBrace] ∧
    rtfText chTab = [chDot] ∧
    (ReformatText.new.printChars [0x41, chTab, 0x42, chLBrace, 0x43, chRBrace]).fExpBuf
      = [0x41, chDot, 0x42, chBackslash, chLBrace, 0x43, chBackslash, chRBrace] := by
  exact ⟨printChars_fExpBuf text self, by decide, by decide, by decide, by decide⟩

/-! ## IIgs character conversion -/

/-- C9: `ConvertGSChar` returns every byte below 128 unchanged, and for every
byte `b` of 128 or more returns the entry at index `b - 128` of the conversion
table; that index lies in `0..127`, so with a 128-entry table the lookup is
never out of bounds. -/
theorem C9_ConvertGSChar_lookup (kGSCharConv : List Byte) (ch : Byte) :
    (ch < 128 → ConvertGSChar kGSCharConv ch = some ch) ∧
    (128 ≤ ch →
      ConvertGSChar kGSCharConv ch = kGSCharConv[ch.val - 128]? ∧ ch.val - 128 < 128) ∧
    (kGSCharConv.length = 128 → (ConvertGSChar kGSCharConv ch).isSome) := by
  have hb : ch.val < 256 := ch.isLt
  refine ⟨?_, ?_, ?_⟩
  · intro h
    simp [ConvertGSChar, h]
  · intro h
    have h' : ¬ ch < 128 := not_lt.mpr h
    refine ⟨by simp [ConvertGSChar, h'], by omega⟩
  · intro hlen
    by_cases h : ch < 128
    · simp [ConvertGSChar, h]
    · simp only [ConvertGSChar, h, if_false]
      rw [List.getElem?_eq_getElem (by omega)]
      rfl

/-- Witness for C9: a 128-entry table of question marks, at the bytes `0x41` and
`0xC5`. -/
theorem C9_ConvertGSChar_lookup_witness :
    ConvertGSChar (List.replicate 128 0x3F) 0x41 = some 0x41 ∧
    (ConvertGSChar (List.replicate 128 0x3F) 0xC5
        = (List.replicate 128 (0x3F : Byte))[(0xC5 : Byte).val - 128]? ∧
      (0xC5 : Byte).val - 128 < 128) ∧
    (ConvertGSChar (List.replicate 128 0x3F) 0xC5).isSome :=
  ⟨(C9_ConvertGSChar_lookup (List.replicate 128 0x3F) 0x41).1 (by decide),
   (C9_ConvertGSChar_lookup (List.replicate 128 0x3F) 0xC5).2.1 (by decide),
   (C9_ConvertGSChar_lookup (List.replicate 128 0x3F) 0xC5).2.2 (by simp)⟩

/-! ## Byte order of the non-consuming readers -/

theorem or_reverse4 (a b c d : Nat) : a ||| b ||| c ||| d = d ||| c ||| b ||| a := by
  rw [Nat.or_comm (a ||| b ||| c) d, Nat.or_comm (a ||| b) c, Nat.or_comm a b,
    ← Nat.or_assoc, ← Nat.or_assoc]

theorem be16_eq_le16 (b0 b1 : Byte) :
    intToUShort (shlInt b0 8 ||| b1.val) = intToUShort (b1.val ||| shlInt b0 8) := by
  rw [Nat.or_comm]

theorem be32_eq_le32 (b0 b1 b2 b3 : Byte) :
    intToULong (shlInt b0 24 ||| shlInt b1 16 ||| shlInt b2 8 ||| b3.val)
      = intToULong (b3.val ||| shlInt b2 8 ||| shlInt b1 16 ||| shlInt b0 24) := by
  rw [or_reverse4]

/-- C10: the non-consuming readers select the byte order by their flag, and the
two orders are byte reversals of each other.  `Get16(buf, true)` is
`Get16LE(buf)` and `Get16(buf, false)` is `Get16BE(buf)`, likewise `Get32`;
`Get16BE` of the bytes `b0 b1` is `Get16LE` of `b1 b0`, and `Get32BE` of
`b0 b1 b2 b3` is `Get32LE` of `b3 b2 b1 b0`, each a defined value. -/
theorem C10_get_byte_order (mem : List Byte) (buf : Nat) (b0 b1 b2 b3 : Byte) :
    Get16 mem buf true = Get16LE mem buf ∧
    Get16 mem buf false = Get16BE mem buf ∧
    Get32 mem buf true = Get32LE mem buf ∧
    Get32 mem buf false = Get32BE mem buf ∧
    Get16BE [b0, b1] 0 = Get16LE [b1, b0] 0 ∧
    (Get16BE [b0, b1] 0).isSome ∧
    Get32BE [b0, b1, b2, b3] 0 = Get32LE [b3, b2, b1, b0] 0 ∧
    (Get32BE [b0, b1, b2, b3] 0).isSome := by
  refine ⟨by simp [Get16], by simp [Get16], by simp [Get32], by simp [Get32], ?_, ?_, ?_, ?_⟩
  · simp [Get16BE, Get16LE, deref, be16_eq_le16]
  · simp [Get16BE, deref]
  · simp [Get32BE, Get32LE, deref, be32_eq_le32]
  · simp [Get32BE, deref]

/-! ## Underflow of the consuming readers -/

/-- C14: on insufficient remaining length the readers return an all-ones value
and leave the cursor untouched.  `Read8` with remaining at most 0 returns
`0xFF`, `Read16` with remaining below 2 returns `0xFFFF`, `Read32` with
remaining below 4 returns `0xFFFFFFFF`, the all-ones value of `unsigned long`;
in each case `ASSERT(false)` is reached and the position and the counter are
exactly as before the call. -/
theorem C14_underflow_sentinel_keeps_cursor (c : Cursor) :
    (c.len ≤ 0 → Read8 c = some { val := 0xFF, cur := c, asserted := true }) ∧
    (c.len < 2 → Read16 c = some { val := 0xFFFF, cur := c, asserted := true }) ∧
    (c.len < 4 → Read32 c = some { val := 0xFFFFFFFF, cur := c, asserted := true }) ∧
    (0xFFFFFFFF : Nat) = 2 ^ ulongBits - 1 :=
  ⟨fun h => Read8_underflow c (by omega), Read16_underflow c, Read32_underflow c, by decide⟩

/-- Witness for C14: `Read8` with nothing left, `Read16` with one byte left and
`Read32` with three bytes left consume nothing. -/
theorem C14_underflow_sentinel_keeps_cursor_witness :
    Read8 { mem := [1, 2, 3], pos := 3, len := 0 }
      = some { val := 0xFF, cur := { mem := [1, 2, 3], pos := 3, len := 0 }, asserted := true } ∧
    Read16 { mem := [1, 2, 3], pos := 2, len := 1 }
      = some { val := 0xFFFF, cur := { mem := [1, 2, 3], pos := 2, len := 1 },
               asserted := true } ∧
    Read32 { mem := [1, 2, 3], pos := 0, len := 3 }
      = some { val := 0xFFFFFFFF, cur := { mem := [1, 2, 3], pos := 0, len := 3 },
               asserted := true } :=
  ⟨(C14_underflow_sentinel_keeps_cursor { mem := [1, 2, 3], pos := 3, len := 0 }).1
      (by decide),
   (C14_underflow_sentinel_keeps_cursor { mem := [1, 2, 3], pos := 2, len := 1 }).2.1
      (by decide),
   (C14_underflow_sentinel_keeps_cursor { mem := [1, 2, 3], pos := 0, len := 3 }).2.2.1
      (by decide)⟩

/-! ## Exactness of the decoders -/

theorem be32_get_value (b0 b1 b2 b3 : Byte) :
    intToULong (shlInt b0 24 ||| shlInt b1 16 ||| shlInt b2 8 ||| b3.val)
      = 2 ^ 24 * b0.val + 2 ^ 16 * b1.val + 2 ^ 8 * b2.val + b3.val := by
  rw [or_reverse4, le32_get_value]
  omega

theorem be16_value (b0 b1 : Byte) :
    intToUShort (shlInt b0 8 ||| b1.val) = 256 * b0.val + b1.val := by
  rw [Nat.or_comm, le16_value]
  omega

/-- C15: the 32-bit decoders are exact for every byte combination, a most
significant byte of `0x80` or more included.  `Get32LE` of `b0 b1 b2 b3` and a
successful `Read32` return exactly `b0 + 2^8*b1 + 2^16*b2 + 2^24*b3`, `Get32BE`
returns exactly `2^24*b0 + 2^16*b1 + 2^8*b2 + b3`, every result is below
`2^32`, and the `Get16LE` / `Get16BE` results are below `2^16`. -/
theorem C15_decoders_exact (b0 b1 b2 b3 : Byte) :
    Get32LE [b0, b1, b2, b3] 0
      = some (b0.val + 2 ^ 8 * b1.val + 2 ^ 16 * b2.val + 2 ^ 24 * b3.val) ∧
    (Read32 { mem := [b0, b1, b2, b3], pos := 0, len := 4 }).map ReadResult.val
      = some (b0.val + 2 ^ 8 * b1.val + 2 ^ 16 * b2.val + 2 ^ 24 * b3.val) ∧
    Get32BE [b0, b1, b2, b3] 0
      = some (2 ^ 24 * b0.val + 2 ^ 16 * b1.val + 2 ^ 8 * b2.val + b3.val) ∧
    b0.val + 2 ^ 8 * b1.val + 2 ^ 16 * b2.val + 2 ^ 24 * b3.val < 2 ^ 32 ∧
    2 ^ 24 * b0.val + 2 ^ 16 * b1.val + 2 ^ 8 * b2.val + b3.val < 2 ^ 32 ∧
    Get16LE [b0, b1] 0 = some (b0.val + 256 * b1.val) ∧
    Get16BE [b0, b1] 0 = some (256 * b0.val + b1.val) ∧
    b0.val + 256 * b1.val < 2 ^ 16 ∧ 256 * b0.val + b1.val < 2 ^ 16 := by
  have h0 : b0.val < 256 := b0.isLt
  have h1 : b1.val < 256 := b1.isLt
  have h2 : b2.val < 256 := b2.isLt
  have h3 : b3.val < 256 := b3.isLt
  refine ⟨?_, ?_, ?_, by omega, by omega, ?_, ?_, by omega, by omega⟩
  · simp [Get32LE, deref, le32_get_value]
  · simp only [Read32, deref]
    simp [le32_read_value]
  · simp [Get32BE, deref, be32_get_value]
  · simp [Get16LE, deref, le16_value]
  · simp [Get16BE, deref, be16_value]

/-! ## The two character mappings compared -/

set_option maxRecDepth 100000 in
theorem PrintableChar_eq_self_iff (b : Byte) :
    PrintableChar b = b ↔ (0x20 ≤ b ∧ b ≤ 0x7E) := by
  revert b
  decide

/-- C18: the two character-mapping policies are distinct.  Whatever the
conversion table, there is a byte on which `PrintableChar` and `ConvertGSChar`
return different results; for a byte below 128 the two agree if and only if the
byte is in `0x20..0x7E`. -/
theorem C18_mappings_differ (kGSCharConv : List Byte) :
    (∃ b : Byte, ConvertGSChar kGSCharConv b ≠ some (PrintableChar b)) ∧
    (∀ b : Byte, b < 128 →
      (ConvertGSChar kGSCharConv b = some (PrintableChar b) ↔ (0x20 ≤ b ∧ b ≤ 0x7E))) := by
  refine ⟨⟨0, by simp [ConvertGSChar]; decide⟩, ?_⟩
  intro b hb
  rw [← PrintableChar_eq_self_iff b]
  simp only [ConvertGSChar, hb, if_true, Option.some.injEq]
  exact eq_comm

/-- Witness for C18: with a 128-entry table of question marks the two mappings
agree on `'A'` and differ on the tab byte. -/
theorem C18_mappings_differ_witness :
    (ConvertGSChar (List.replicate 128 0x3F) 0x41 = some (PrintableChar 0x41)
      ↔ ((0x20 : Byte) ≤ 0x41 ∧ (0x41 : Byte) ≤ 0x7E)) ∧
    (ConvertGSChar (List.replicate 128 0x3F) 0x09 = some (PrintableChar 0x09)
      ↔ ((0x20 : Byte) ≤ 0x09 ∧ (0x09 : Byte) ≤ 0x7E)) :=
  ⟨(C18_mappings_differ (List.replicate 128 0x3F)).2 0x41 (by decide),
   (C18_mappings_differ (List.replicate 128 0x3F)).2 0x09 (by decide)⟩

set_option maxRecDepth 100000 in
/-- C19: `PrintableChar` is idempotent: for every byte `b`,
`PrintableChar(PrintableChar(b))` is `PrintableChar(b)`. -/
theorem C19_PrintableChar_idempotent (b : Byte) :
    PrintableChar (PrintableChar b) = PrintableChar b := by
  revert b
  decide

/-! ## Quote doubling for CSV -/

theorem BufPrintQChar_eq (self : ReformatText) (ch : Byte) :
    self.BufPrintQChar ch =
      { self with fExpBuf := self.fExpBuf ++
          (if ch = chDQuote then [chDQuote, chDQuote] else [ch]) } := by
  unfold ReformatText.BufPrintQChar ExpandBuffer.Printf
  by_cases h : ch = chDQuote <;> simp [h]

theorem csvText_eq (ch : Byte) :
    csvText ch = if ch = chDQuote then [chDQuote, chDQuote] else [ch] := by
  unfold csvText
  rw [BufPrintQChar_eq]
  simp [ReformatText.new]

theorem printQChars_fExpBuf (text : List Byte) : ∀ self : ReformatText,
    (self.printQChars text).fExpBuf = self.fExpBuf ++ (text.map csvText).flatten := by
  induction text with
  | nil => intro self; simp [ReformatText.printQChars]
  | cons b bs ih =>
    intro self
    have h := ih (self.BufPrintQChar b)
    simp only [ReformatText.printQChars, List.foldl_cons] at h ⊢
    rw [h, BufPrintQChar_eq]
    simp [csvText_eq]

theorem collapseQuotes_cons_of_ne (a : Byte) (t : List Byte) (h : a ≠ chDQuote) :
    collapseQuotes (a :: t) = a :: collapseQuotes t := by
  cases t with
  | nil => simp [collapseQuotes]
  | cons b r => simp [collapseQuotes, h]

theorem collapseQuotes_csv (text : List Byte) :
    collapseQuotes (text.map csvText).flatten = text := by
  induction text with
  | nil => simp [collapseQuotes]
  | cons b bs ih =>
    simp only [List.map_cons, List.flatten_cons, csvText_eq]
    by_cases h : b = chDQuote
    · simp [h, collapseQuotes, ih]
    · simp only [h, if_false, List.singleton_append]
      rw [collapseQuotes_cons_of_ne _ _ h, ih]

theorem count_quotes_csv (text : List Byte) :
    ((text.map csvText).flatten.count chDQuote) % 2 = 0 := by
  induction text with
  | nil => simp
  | cons b bs ih =>
    simp only [List.map_cons, List.flatten_cons, csvText_eq, List.count_append]
    by_cases h : b = chDQuote
    · simp [h]
      omega
    · have h' : ¬ (b == chDQuote) = true := by simpa using h
      simp [h, List.count_cons, h']
      omega

/-- C17: `BufPrintQChar` doubles double quotes.  For the double quote byte it
appends exactly two double quotes and for every other byte exactly that one
byte, changing nothing else; hence for every byte sequence the emitted text
contains an even number of double quotes, and collapsing each doubled quote to
one restores the input sequence. -/
theorem C17_BufPrintQChar_doubles_quotes (self : ReformatText) (ch : Byte)
    (text : List Byte) :
    self.BufPrintQChar ch =
      { self with fExpBuf := self.fExpBuf ++
          (if ch = chDQuote then [chDQuote, chDQuote] else [ch]) } ∧
    (self.printQChars text).fExpBuf = self.fExpBuf ++ (text.map csvText).flatten ∧
    ((text.map csvText).flatten.count chDQuote) % 2 = 0 ∧
    collapseQuotes (text.map csvText).flatten = text :=
  ⟨BufPrintQChar_eq self ch, printQChars_fExpBuf text self, count_quotes_csv text,
    collapseQuotes_csv text⟩

/-! ## Escaped text is decodable -/

theorem isRtfUnit_iff (u : List Byte) :
    isRtfUnit u = true ↔
      (∃ c, isReserved c = false ∧ u = [c]) ∨
      (∃ r, isReserved r = true ∧ u = [chBackslash, r]) := by
  rcases u with _ | ⟨a, _ | ⟨b, _ | ⟨c, t⟩⟩⟩
  · simp [isRtfUnit]
  · simp [isRtfUnit]
  · simp only [isRtfUnit, Bool.and_eq_true, beq_iff_eq]
    constructor
    · rintro ⟨rfl, hb⟩
      exact Or.inr ⟨b, hb, rfl⟩
    · rintro (⟨c, _, hc⟩ | ⟨r, hr, hu⟩)
      · simp at hc
      · simp only [List.cons.injEq, and_true] at hu
        obtain ⟨rfl, rfl⟩ := hu
        exact ⟨rfl, hr⟩
  · simp [isRtfUnit]

theorem unit_prefix_free (u v x y : List Byte) (hu : isRtfUnit u = true)
    (hv : isRtfUnit v = true) (h : u ++ x = v ++ y) : u = v ∧ x = y := by
  have hb : isReserved chBackslash = true := by decide
  rcases (isRtfUnit_iff u).1 hu with ⟨c, hc, rfl⟩ | ⟨r, hr, rfl⟩ <;>
  rcases (isRtfUnit_iff v).1 hv with ⟨d, hd, rfl⟩ | ⟨q, hq, rfl⟩
  · simp only [List.singleton_append, List.cons.injEq] at h
    obtain ⟨rfl, rfl⟩ := h
    exact ⟨rfl, rfl⟩
  · simp only [List.singleton_append, List.cons_append, List.cons.injEq] at h
    obtain ⟨rfl, _⟩ := h
    rw [hb] at hc
    exact absurd hc (by decide)
  · simp only [List.singleton_append, List.cons_append, List.cons.injEq] at h
    obtain ⟨rfl, _⟩ := h
    rw [hb] at hd
    exact absurd hd (by decide)
  · simp only [List.cons_append, List.nil_append, List.cons.injEq, true_and] at h
    obtain ⟨rfl, rfl⟩ := h
    exact ⟨rfl, rfl⟩

theorem unit_ne_nil (u : List Byte) (hu : isRtfUnit u = true) : u ≠ [] := by
  intro h
  rw [h] at hu
  simp [isRtfUnit] at hu

theorem units_split_unique (us : List (List Byte)) :
    ∀ vs : List (List Byte), (∀ u ∈ us, isRtfUnit u = true) →
      (∀ v ∈ vs, isRtfUnit v = true) → us.flatten = vs.flatten → us = vs := by
  induction us with
  | nil =>
    intro vs _ hvs h
    cases vs with
    | nil => rfl
    | cons v vs =>
      have hv := unit_ne_nil v (hvs v (by simp))
      simp at h
      exact absurd h.1 hv
  | cons u us ih =>
    intro vs hus hvs h
    cases vs with
    | nil =>
      have hu := unit_ne_nil u (hus u (by simp))
      simp at h
      exact absurd h.1 hu
    | cons v vs =>
      simp only [List.flatten_cons] at h
      obtain ⟨rfl, h'⟩ := unit_prefix_free u v _ _ (hus u (by simp)) (hvs v (by simp)) h
      rw [ih vs (fun w hw => hus w (by simp [hw])) (fun w hw => hvs w (by simp [hw])) h']

set_option maxRecDepth 100000 in
theorem rtfText_isRtfUnit (ch : Byte) : isRtfUnit (rtfText ch) = true := by
  revert ch
  decide

set_option maxRecDepth 100000 in
theorem unitChar_rtfText (ch : Byte) : unitChar (rtfText ch) = PrintableChar ch := by
  revert ch
  decide

theorem rtfUnescape_unit_append (u t : List Byte) (hu : isRtfUnit u = true) :
    rtfUnescape (u ++ t) = (rtfUnescape t).map fun r => unitChar u :: r := by
  rcases (isRtfUnit_iff u).1 hu with ⟨c, hc, rfl⟩ | ⟨r, hr, rfl⟩
  · have hne : c ≠ chBackslash := by
      intro h
      rw [h] at hc
      exact absurd hc (by decide)
    cases t with
    | nil => simp [rtfUnescape, hc, unitChar]
    | cons b rest => simp [rtfUnescape, hc, hne, unitChar]
  · simp [rtfUnescape, hr, unitChar]

theorem rtfUnescape_units (text : List Byte) :
    rtfUnescape (text.map rtfText).flatten = some (text.map PrintableChar) := by
  induction text with
  | nil => simp [rtfUnescape]
  | cons b bs ih =>
    simp only [List.map_cons, List.flatten_cons]
    rw [rtfUnescape_unit_append _ _ (rtfText_isRtfUnit b), ih, unitChar_rtfText]
    rfl

/-- C16: text written through `RTFPrintChar` is well escaped and decodable.  For
every byte sequence, the output appended by calling `RTFPrintChar` on each byte
in order is a sequence of units, each one byte that is not reserved or a
backslash followed by a reserved byte; no other sequence of such units spells
the same output; removing the escape prefixes yields the sequence of the
`PrintableChar` images of the input, and the left-to-right decoder, which
rejects an unescaped reserved byte, returns that sequence. -/
theorem C16_printChars_decodable (self : ReformatText) (text : List Byte) :
    (self.printChars text).fExpBuf = self.fExpBuf ++ (text.map rtfText).flatten ∧
    (∀ u ∈ text.map rtfText, isRtfUnit u = true) ∧
    (∀ us : List (List Byte), (∀ u ∈ us, isRtfUnit u = true) →
      us.flatten = (text.map rtfText).flatten → us = text.map rtfText) ∧
    (text.map rtfText).map unitChar = text.map PrintableChar ∧
    rtfUnescape (text.map rtfText).flatten = some (text.map PrintableChar) := by
  have hunits : ∀ u ∈ text.map rtfText, isRtfUnit u = true := by
    intro u hu
    obtain ⟨ch, _, rfl⟩ := List.mem_map.1 hu
    exact rtfText_isRtfUnit ch
  refine ⟨printChars_fExpBuf text self, hunits, ?_, ?_, rtfUnescape_units text⟩
  · intro us hus h
    exact units_split_unique us _ hus hunits h
  · simp [List.map_map, Function.comp_def, unitChar_rtfText]

/-- Witness for C16: the high-bit bytes `0xDC`, `0xFB`, `0xFD` strip to
backslash and the two braces; the split of their output into units is the one
the writer produced. -/
theorem C16_printChars_decodable_witness :
    [[chBackslash, chBackslash], [chBackslash, chLBrace], [chBackslash, chRBrace]]
      = [0xDC, 0xFB, 0xFD].map rtfText :=
  (C16_printChars_decodable ReformatText.new [0xDC, 0xFB, 0xFD]).2.2.1
    [[chBackslash, chBackslash], [chBackslash, chLBrace], [chBackslash, chRBrace]]
    (by decide) (by decide)

/-! ## Capacity of the run-length unpacker -/

theorem unpackFrom_written_le (runOf : Byte → RunKind × Nat) (capacity : Nat) :
    ∀ (k : Nat) (src dst : List Byte), src.length ≤ k → dst.length ≤ capacity →
      (unpackFrom runOf capacity src dst).written.length ≤ capacity := by
  intro k
  induction k with
  | zero =>
    intro src dst hk hd
    have hnil : src = [] := List.eq_nil_of_length_eq_zero (by omega)
    subst hnil
    rw [unpackFrom]
    exact hd
  | succ k ih =>
    intro src dst hk hd
    cases src with
    | nil =>
      rw [unpackFrom]
      exact hd
    | cons ctl rest =>
      rw [unpackFrom]
      simp only [List.length_cons] at hk
      cases hrun : runOf ctl with
      | mk kind n =>
        cases kind with
        | LITERAL =>
          simp only
          split
          · exact hd
          · split
            · exact hd
            · apply ih
              · simp only [List.length_drop]
                omega
              · simp only [List.length_append, List.length_take]
                omega
        | REPEATED =>
          simp only
          cases rest with
          | nil => exact hd
          | cons b rest' =>
            simp only
            split
            · simp only [List.length_append, List.length_replicate]
              omega
            · apply ih
              · simp only [List.length_cons] at hk
                omega
              · simp only [List.length_append, List.length_replicate]
                omega

theorem unpackFrom_repeated_overflow (runOf : Byte → RunKind × Nat) (capacity : Nat)
    (dst : List Byte) (ctl b : Byte) (rest : List Byte) (n : Nat)
    (hrun : runOf ctl = (.REPEATED, n)) (hover : capacity < dst.length + n) :
    unpackFrom runOf capacity (ctl :: b :: rest) dst
      = { written := dst ++ List.replicate (capacity - dst.length) b, error := none } := by
  rw [unpackFrom]
  simp [hrun, hover]

/-- C11: `UnpackBytes` never writes more than the declared destination
capacity.  Whatever the source, the bytes written number at most `capacity`;
and at a REPEATED run whose claimed length `n` exceeds the remaining capacity,
however large `n` is, the unpacker fills the destination with the repeated byte
up to exactly `capacity` bytes in total and stops there without failing,
ignoring the rest of the source. -/
theorem C11_UnpackBytes_within_capacity (runOf : Byte → RunKind × Nat) (capacity : Nat)
    (src dst : List Byte) (ctl b : Byte) (rest : List Byte) (n : Nat) :
    (UnpackBytes runOf capacity src).written.length ≤ capacity ∧
    (dst.length ≤ capacity → runOf ctl = (.REPEATED, n) → capacity < dst.length + n →
      unpackFrom runOf capacity (ctl :: b :: rest) dst
        = { written := dst ++ List.replicate (capacity - dst.length) b, error := none } ∧
      (unpackFrom runOf capacity (ctl :: b :: rest) dst).written.length = capacity) ∧
    (runOf ctl = (.REPEATED, n) → capacity < n →
      UnpackBytes runOf capacity (ctl :: b :: rest)
        = { written := List.replicate capacity b, error := none }) := by
  refine ⟨?_, ?_, ?_⟩
  · exact unpackFrom_written_le runOf capacity src.length src [] (Nat.le_refl _)
      (Nat.zero_le _)
  · intro hd hrun hover
    rw [unpackFrom_repeated_overflow runOf capacity dst ctl b rest n hrun hover]
    refine ⟨rfl, ?_⟩
    simp only [List.length_append, List.length_replicate]
    omega
  · intro hrun hover
    unfold UnpackBytes
    rw [unpackFrom_repeated_overflow runOf capacity [] ctl b rest n hrun (by simpa using hover)]
    simp

/-- Witness for C11: in the PackBits format the control byte `0x81` announces a
run of 128; with two bytes already written to a destination of five, three
more are written and the rest of the source is ignored. -/
theorem C11_UnpackBytes_within_capacity_witness :
    (unpackFrom packBitsRun 5 [0x81, 0x43, 0x00, 0x44] [0x41, 0x42]
        = { written := [0x41, 0x42] ++ List.replicate (5 - [(0x41 : Byte), 0x42].length) 0x43,
            error := none } ∧
      (unpackFrom packBitsRun 5 [0x81, 0x43, 0x00, 0x44] [0x41, 0x42]).written.length = 5) ∧
    UnpackBytes packBitsRun 5 [0x81, 0x43, 0x00, 0x44]
      = { written := List.replicate 5 0x43, error := none } :=
  ⟨(C11_UnpackBytes_within_capacity packBitsRun 5 [] [0x41, 0x42] 0x81 0x43 [0x00, 0x44]
      128).2.1 (by decide) (by decide) (by decide),
   (C11_UnpackBytes_within_capacity packBitsRun 5 [] [0x41, 0x42] 0x81 0x43 [0x00, 0x44]
      128).2.2 (by decide) (by decide)⟩

/-! ## Style state -/

theorem attrCall_keeps_exclusive (esc : AttrCall → List Byte) (op : AttrCall)
    (s : ReformatText)
    (h : ¬ (s.fSuperscriptEnabled = true ∧ s.fSubscriptEnabled = true)) :
    ¬ ((op.apply esc s).fSuperscriptEnabled = true ∧
       (op.apply esc s).fSubscriptEnabled = true) := by
  cases hp : s.fSuperscriptEnabled <;> cases hb : s.fSubscriptEnabled <;>
    simp only [hp, hb, and_self, not_true_eq_false] at h <;>
    cases op <;>
    simp only [AttrCall.apply, AttrCall.emit, AttrCall.atRequested, AttrCall.setAttr,
      ExpandBuffer.Printf, hp, hb] <;>
    (try split) <;> simp [hp, hb]

theorem foldl_apply_keeps_exclusive (esc : AttrCall → List Byte) (calls : List AttrCall) :
    ∀ s : ReformatText,
    ¬ (s.fSuperscriptEnabled = true ∧ s.fSubscriptEnabled = true) →
    ¬ ((calls.foldl (fun s call => call.apply esc s) s).fSuperscriptEnabled = true ∧
       (calls.foldl (fun s call => call.apply esc s) s).fSubscriptEnabled = true) := by
  induction calls with
  | nil => intro s h; exact h
  | cons op ops ih =>
    intro s h
    exact ih (op.apply esc s) (attrCall_keeps_exclusive esc op s h)

theorem styleCall_keeps_exclusive (esc : AttrCall → List Byte) (op : StyleCall)
    (s : ReformatText)
    (h : ¬ (s.fSuperscriptEnabled = true ∧ s.fSubscriptEnabled = true)) :
    ¬ ((op.apply esc s).fSuperscriptEnabled = true ∧
       (op.apply esc s).fSubscriptEnabled = true) := by
  cases op with
  | attr call => exact attrCall_keeps_exclusive esc call s h
  | RTFSetGSFontStyle qdStyle =>
    exact foldl_apply_keeps_exclusive esc (gsFontStyleCalls qdStyle) s h

theorem runStyleCalls_keeps_exclusive (esc : AttrCall → List Byte)
    (calls : List StyleCall) : ∀ s : ReformatText,
    ¬ (s.fSuperscriptEnabled = true ∧ s.fSubscriptEnabled = true) →
    ¬ ((runStyleCalls esc calls s).fSuperscriptEnabled = true ∧
       (runStyleCalls esc calls s).fSubscriptEnabled = true) := by
  induction calls with
  | nil => intro s h; exact h
  | cons op ops ih =>
    intro s h
    exact ih (op.apply esc s) (styleCall_keeps_exclusive esc op s h)

/-- C13: superscript and subscript are never both active.  The freshly
constructed emitter has `fSuperscriptEnabled` and `fSubscriptEnabled` both
false, the other toggles off, justification left, margins 0, point size 8 and
colour none; and after every sequence of style calls made on it, any of the
operations `RTFBoldOn` to `RTFSetGSFontStyle` with any arguments, at most one
of the two flags is true.  In particular `RTFSetGSFontStyle` with the mask
`0xC0`, which asks for superscript and subscript together, leaves subscript on
and superscript off. -/
theorem C13_superscript_subscript_exclusive (esc : AttrCall → List Byte)
    (calls : List StyleCall) :
    ReformatText.new.fSuperscriptEnabled = false ∧
    ReformatText.new.fSubscriptEnabled = false ∧
    ReformatText.new.fBoldEnabled = false ∧
    ReformatText.new.fItalicEnabled = false ∧
    ReformatText.new.fUnderlineEnabled = false ∧
    ReformatText.new.fJustified = .kJustifyLeft ∧
    ReformatText.new.fLeftMargin = 0 ∧
    ReformatText.new.fRightMargin = 0 ∧
    ReformatText.new.fPointSize = 8 ∧
    ReformatText.new.fTextColor = .kColorNone ∧
    ¬ ((runStyleCalls esc calls ReformatText.new).fSuperscriptEnabled = true ∧
       (runStyleCalls esc calls ReformatText.new).fSubscriptEnabled = true) ∧
    ((StyleCall.RTFSetGSFontStyle 0xC0).apply sampleEscape ReformatText.new).fSuperscriptEnabled
      = false ∧
    ((StyleCall.RTFSetGSFontStyle 0xC0).apply sampleEscape ReformatText.new).fSubscriptEnabled
      = true :=
  ⟨rfl, rfl, rfl, rfl, rfl, rfl, rfl, rfl, rfl, rfl,
    runStyleCalls_keeps_exclusive esc calls ReformatText.new (by decide),
    by decide, by decide⟩

end CiderPress
